import Mathlib

/-!
Shallow embedding of the VQ-VAE core from
`tensorflow_probability/examples/vq_vae.py`: the vector quantizer
(`VectorQuantizer.__call__`), the straight-through loss composition and the
EMA codebook update (`make_vq_vae`).  Tensors are embedded as lists of
rationals (float32 arithmetic modelled exactly over ℚ); the batch and latent
axes are flattened into a single list of positions, which is faithful because
every operation the claims mention treats positions independently or sums
over both axes at once (`axis=[0,1]`).
-/

namespace VqVae

/-- A code vector (one latent position's vector, or one codebook row). -/
abbrev Vec := List ℚ

/-- The `1e-5` constant added in `make_vq_vae` ("Add small value to avoid
dividing by zero"). -/
def eps : ℚ := 1 / 100000

/-- Squared Euclidean distance between two vectors.  The source computes
`tf.norm(codes - codebook, axis=3)`, i.e. the square root of this quantity;
since `Real.sqrt` is monotone the argmin is unchanged, and the bridge to the
actual `tf.norm` distances is proved in the nearest-neighbour theorem. -/
def sqDist (x y : Vec) : ℚ := (List.zipWith (fun a b => (a - b) ^ 2) x y).sum

/-- Index of the first minimal element of a list: the semantics of
`tf.argmin(distances, 2)`, which returns the smallest index on ties. -/
def argminIdx : List ℚ → ℕ
  | [] => 0
  | [_] => 0
  | x :: y :: ys =>
    let j := argminIdx (y :: ys)
    if x ≤ (y :: ys).getD j 0 then 0 else j + 1

/-- `assignments = tf.argmin(distances, 2)` for one latent position. -/
def quantizeIdx (code : Vec) (codebook : List Vec) : ℕ :=
  argminIdx (codebook.map (fun e => sqDist code e))

/-- `tf.one_hot(i, depth=K)`: length-`K` vector with a `1` at position `i`
and `0` elsewhere (all zeros when `i ≥ K`, as in TensorFlow). -/
def oneHot : ℕ → ℕ → Vec
  | 0, _ => []
  | K + 1, 0 => 1 :: List.replicate K 0
  | K + 1, i + 1 => 0 :: oneHot K i

/-- The one-hot assignment row for one latent position
(`one_hot_assignments` in `VectorQuantizer.__call__`). -/
def oneHotAssign (code : Vec) (codebook : List Vec) : Vec :=
  oneHot codebook.length (quantizeIdx code codebook)

/-- The all-zeros vector of dimension `D`. -/
def zeroVec (D : ℕ) : Vec := List.replicate D 0

/-- Scalar multiple of a vector. -/
def scaleVec (a : ℚ) (v : Vec) : Vec := v.map (fun x => a * x)

/-- Elementwise sum of two vectors. -/
def addVec (x y : Vec) : Vec := List.zipWith (fun a b => a + b) x y

/-- `Σ_k ws[k] • rows[k]`, the embedding of
`tf.reduce_sum(weights * rows, axis)` used both for
`nearest_codebook_entries` and for the per-code batch mean sums. -/
def weightedSum (D : ℕ) : List ℚ → List Vec → Vec
  | [], _ => zeroVec D
  | _, [] => zeroVec D
  | w :: ws, r :: rs => addVec (scaleVec w r) (weightedSum D ws rs)

/-- `nearest_codebook_entries` for one latent position:
`tf.reduce_sum(one_hot_assignments * codebook, axis=2)`. -/
def nearestEntry (D : ℕ) (code : Vec) (codebook : List Vec) : Vec :=
  weightedSum D (oneHotAssign code codebook) codebook

/-- `tf.python.training.moving_averages.assign_moving_average(var, value,
decay, zero_debias=False)`: writes `decay * var + (1 - decay) * value`
into the variable and returns it, elementwise over a rank-1 tensor. -/
def assignMovingAverage (decay : ℚ) (stored value : List ℚ) : List ℚ :=
  List.zipWith (fun v x => decay * v + (1 - decay) * x) stored value

/-- The same moving average applied to a rank-2 tensor (`ema_means`). -/
def emaMeansUpdate (decay : ℚ) (stored value : List Vec) : List Vec :=
  List.zipWith (fun m v => List.zipWith (fun a b => decay * a + (1 - decay) * b) m v)
    stored value

/-- `tf.reduce_sum(one_hot_assignments, axis=[0, 1])`: how many positions
were assigned to each of the `K` codes this step.  `oneHots` is the list of
one-hot rows, one per (batch, latent) position. -/
def batchCounts (K : ℕ) (oneHots : List Vec) : List ℚ :=
  (List.range K).map (fun k => (oneHots.map (fun r => r.getD k 0)).sum)

/-- `tf.reduce_sum(tf.expand_dims(codes, 2) * tf.expand_dims(one_hot, 3),
axis=[0, 1])`: per-code sum of the raw latent vectors assigned to it. -/
def batchMeans (K D : ℕ) (codes oneHots : List Vec) : List Vec :=
  (List.range K).map (fun k => weightedSum D (oneHots.map (fun r => r.getD k 0)) codes)

/-- The mutable variables of `VectorQuantizer`: `codebook`, `ema_count`,
`ema_means`. -/
structure VQState where
  codebook : List Vec
  emaCount : List ℚ
  emaMeans : List Vec
deriving DecidableEq

/-- One training step's codebook update, lines 272–286 of `make_vq_vae`:
the two `assign_moving_average` calls write the EMA accumulators; then the
*local* tensors `updated_ema_count += 1e-5` and
`updated_ema_means /= updated_ema_count` are derived (Python `+=`/`/=` on a
`tf.Tensor` builds a new tensor, it does not write the variable); finally
`tf.assign(codebook, updated_ema_means)` writes the codebook. -/
def trainStep (decay : ℚ) (K D : ℕ) (st : VQState) (codes oneHots : List Vec) :
    VQState :=
  let updatedEmaCount := assignMovingAverage decay st.emaCount (batchCounts K oneHots)
  let updatedEmaMeans := emaMeansUpdate decay st.emaMeans (batchMeans K D codes oneHots)
  let adjustedCount := updatedEmaCount.map (fun c => c + eps)
  let normalizedMeans :=
    List.zipWith (fun m c => m.map (fun a => a / c)) updatedEmaMeans adjustedCount
  { codebook := normalizedMeans, emaCount := updatedEmaCount,
    emaMeans := updatedEmaMeans }

/-- Iterated EMA count updates from an initial accumulator, one batch of
one-hot assignment rows per step (`ema_count` starts at zero via
`tf.constant_initializer(0)` in `VectorQuantizer.__init__`). -/
def runEmaCount (decay : ℚ) (K : ℕ) (init : List ℚ) (steps : List (List Vec)) :
    List ℚ :=
  steps.foldl (fun e oneHots => assignMovingAverage decay e (batchCounts K oneHots)) init

/-! ### Dual-number semantics of TensorFlow differentiation

`make_vq_vae` builds `loss` from `codes` (the encoder output), the quantizer
outputs and two `tf.stop_gradient` barriers.  A scalar tensor is embedded as
a dual number: its forward value together with its derivative along an
arbitrary one-parameter perturbation of the codebook variable (the
directional derivative backpropagation would report for the codebook).
`tf.stop_gradient` keeps the value and zeroes the derivative. -/

structure Dual where
  val : ℚ
  deriv : ℚ
deriving DecidableEq

/-- Addition of tensors, with the usual sum rule. -/
def dAdd (x y : Dual) : Dual := ⟨x.val + y.val, x.deriv + y.deriv⟩

/-- Subtraction of tensors. -/
def dSub (x y : Dual) : Dual := ⟨x.val - y.val, x.deriv - y.deriv⟩

/-- Product of tensors, with the product rule. -/
def dMul (x y : Dual) : Dual := ⟨x.val * y.val, x.deriv * y.val + x.val * y.deriv⟩

/-- Multiplication by a constant (e.g. `beta` or `1/n` in a mean). -/
def dScale (c : ℚ) (x : Dual) : Dual := ⟨c * x.val, c * x.deriv⟩

/-- `tf.stop_gradient`: identity on the value, zero derivative. -/
def dStopGradient (x : Dual) : Dual := ⟨x.val, 0⟩

/-- Sum of a list of scalars. -/
def dSum (l : List Dual) : Dual := l.foldr dAdd ⟨0, 0⟩

/-- `codes_straight_through = codes + tf.stop_gradient(
nearest_codebook_entries - codes)`, elementwise over the flattened tensor. -/
def codesStraightThrough (codes nearest : List Dual) : List Dual :=
  List.zipWith (fun c n => dAdd c (dStopGradient (dSub n c))) codes nearest

/-- `commitment_loss = tf.reduce_mean(tf.square(codes -
tf.stop_gradient(nearest_codebook_entries)))` over the flattened tensor. -/
def commitmentLoss (codes nearest : List Dual) : Dual :=
  dScale ((codes.length : ℚ))⁻¹
    (dSum (List.zipWith
      (fun c n => dMul (dSub c (dStopGradient n)) (dSub c (dStopGradient n)))
      codes nearest))

/-- `reconstruction_loss = -tf.reduce_mean(decoder_fn(x).log_prob(images))`
as a differentiable scalar function of its input tensor
`x = codes_straight_through`: `f` is that scalar function (decoder network
composed with the log-likelihood and the negated mean), `sens` the list of
its partial derivatives `∂f/∂xᵢ` at the input.  The chain rule gives the
derivative `Σᵢ ∂f/∂xᵢ · dxᵢ` along the codebook perturbation; the decoder's
own parameters and `images` do not depend on the codebook. -/
def reconstructionLoss (f : List ℚ → ℚ) (sens : List ℚ) (x : List Dual) : Dual :=
  ⟨f (x.map Dual.val), (List.zipWith (fun s xi => s * xi.deriv) sens x).sum⟩

/-- The composed loss of `make_vq_vae`:
`loss = beta * commitment_loss; loss += reconstruction_loss`. -/
def vqLoss (beta : ℚ) (f : List ℚ → ℚ) (sens : List ℚ)
    (codes nearest : List Dual) : Dual :=
  dAdd (dScale beta (commitmentLoss codes nearest))
    (reconstructionLoss f sens (codesStraightThrough codes nearest))

/-! ### Generic list index helpers -/

theorem getD_zipWith {α β γ : Type} (f : α → β → γ) :
    ∀ (l1 : List α) (l2 : List β) (k : ℕ), k < l1.length → k < l2.length →
      ∀ (d1 : α) (d2 : β) (d3 : γ),
        (List.zipWith f l1 l2).getD k d3 = f (l1.getD k d1) (l2.getD k d2)
  | [], _, k, h1, _, _, _, _ => by simp at h1
  | _ :: _, [], k, _, h2, _, _, _ => by simp at h2
  | a :: l1, b :: l2, 0, _, _, d1, d2, d3 => by simp
  | a :: l1, b :: l2, k + 1, h1, h2, d1, d2, d3 => by
    simpa using getD_zipWith f l1 l2 k (by simpa using h1) (by simpa using h2) d1 d2 d3

theorem getD_map {α β : Type} (f : α → β) :
    ∀ (l : List α) (k : ℕ), k < l.length → ∀ (d1 : α) (d2 : β),
      (l.map f).getD k d2 = f (l.getD k d1)
  | [], k, h, _, _ => by simp at h
  | a :: l, 0, _, d1, d2 => by simp
  | a :: l, k + 1, h, d1, d2 => by
    simpa using getD_map f l k (by simpa using h) d1 d2

theorem mem_of_zipWith {α β γ : Type} (f : α → β → γ) :
    ∀ (l1 : List α) (l2 : List β) (x : γ), x ∈ List.zipWith f l1 l2 →
      ∃ a ∈ l1, ∃ b ∈ l2, x = f a b
  | [], _, x, h => by simp at h
  | _ :: _, [], x, h => by simp at h
  | a :: l1, b :: l2, x, h => by
    rcases List.mem_cons.mp h with h | h
    · exact ⟨a, by simp, b, by simp, h⟩
    · obtain ⟨a', ha, b', hb, hx⟩ := mem_of_zipWith f l1 l2 x h
      exact ⟨a', by simp [ha], b', by simp [hb], hx⟩

theorem getD_nonneg (l : List ℚ) (h : ∀ x ∈ l, 0 ≤ x) (k : ℕ) : 0 ≤ l.getD k 0 := by
  by_cases hk : k < l.length
  · rw [List.getD_eq_getElem l 0 hk]
    exact h _ (List.getElem_mem hk)
  · rw [List.getD_eq_default l 0 (by omega)]

/-! ### Properties of `argminIdx` (the `tf.argmin` semantics) -/

theorem argminIdx_lt_length : ∀ (l : List ℚ), l ≠ [] → argminIdx l < l.length
  | [], h => absurd rfl h
  | [_], _ => by simp [argminIdx]
  | x :: y :: ys, _ => by
    have ih := argminIdx_lt_length (y :: ys) (by simp)
    simp only [argminIdx]
    split
    · simp
    · simpa using Nat.succ_lt_succ ih

theorem argminIdx_le : ∀ (l : List ℚ) (k : ℕ), k < l.length →
    l.getD (argminIdx l) 0 ≤ l.getD k 0
  | [], k, hk => by simp at hk
  | [x], k, hk => by
    have : k = 0 := by simpa using Nat.lt_one_iff.mp (by simpa using hk)
    subst this
    simp [argminIdx]
  | x :: y :: ys, k, hk => by
    have ih := fun k hk => argminIdx_le (y :: ys) k hk
    simp only [argminIdx]
    split
    · cases k with
      | zero => simp
      | succ k' =>
        have hk' : k' < (y :: ys).length := by simpa using Nat.succ_lt_succ_iff.mp hk
        calc (x :: y :: ys).getD 0 0 = x := by simp
          _ ≤ (y :: ys).getD (argminIdx (y :: ys)) 0 := by assumption
          _ ≤ (y :: ys).getD k' 0 := ih k' hk'
          _ = (x :: y :: ys).getD (k' + 1) 0 := by simp
    · rename_i hxle
      have hmx : (y :: ys).getD (argminIdx (y :: ys)) 0 < x := lt_of_not_le hxle
      cases k with
      | zero => simpa using le_of_lt hmx
      | succ k' =>
        have hk' : k' < (y :: ys).length := by simpa using Nat.succ_lt_succ_iff.mp hk
        simpa using ih k' hk'

theorem argminIdx_first : ∀ (l : List ℚ) (k : ℕ), k < l.length →
    l.getD k 0 ≤ l.getD (argminIdx l) 0 → argminIdx l ≤ k
  | [], k, hk, _ => by simp at hk
  | [x], k, hk, _ => by simp [argminIdx]
  | x :: y :: ys, k, hk, hle => by
    have ih := fun k hk hle => argminIdx_first (y :: ys) k hk hle
    simp only [argminIdx] at hle ⊢
    split
    · exact Nat.zero_le k
    · rename_i hxle
      have hmx : (y :: ys).getD (argminIdx (y :: ys)) 0 < x := lt_of_not_le hxle
      rw [if_neg hxle] at hle
      cases k with
      | zero =>
        exact absurd (by simpa using hle) (not_le_of_lt hmx)
      | succ k' =>
        have hk' : k' < (y :: ys).length := by simpa using Nat.succ_lt_succ_iff.mp hk
        exact Nat.succ_le_succ (ih k' hk' (by simpa using hle))

/-! ### Properties of `oneHot` and the vector helpers -/

theorem oneHot_length : ∀ (K i : ℕ), (oneHot K i).length = K
  | 0, _ => rfl
  | K + 1, 0 => by simp [oneHot]
  | K + 1, i + 1 => by simpa [oneHot] using oneHot_length K i

theorem getD_replicate_zero : ∀ (n k : ℕ), (List.replicate n (0 : ℚ)).getD k 0 = 0
  | 0, _ => by simp
  | n + 1, 0 => by simp
  | n + 1, k + 1 => by
    rw [List.replicate_succ, List.getD_cons_succ]
    exact getD_replicate_zero n k

theorem oneHot_getD_self : ∀ (K i : ℕ), i < K → (oneHot K i).getD i 0 = 1
  | 0, _, h => by simp at h
  | K + 1, 0, _ => by simp [oneHot]
  | K + 1, i + 1, h => by
    simpa [oneHot] using oneHot_getD_self K i (by omega)

theorem oneHot_getD_ne : ∀ (K i j : ℕ), j ≠ i → (oneHot K i).getD j 0 = 0
  | 0, _, j, _ => by simp [oneHot]
  | K + 1, 0, 0, h => absurd rfl h
  | K + 1, 0, j + 1, _ => by simp [oneHot, getD_replicate_zero]
  | K + 1, i + 1, 0, _ => by simp [oneHot]
  | K + 1, i + 1, j + 1, h => by
    simpa [oneHot] using oneHot_getD_ne K i j (by omega)

theorem oneHot_sum : ∀ (K i : ℕ), i < K → (oneHot K i).sum = 1
  | 0, _, h => by simp at h
  | K + 1, 0, _ => by simp [oneHot]
  | K + 1, i + 1, h => by
    simpa [oneHot] using oneHot_sum K i (by omega)

theorem zeroVec_length (D : ℕ) : (zeroVec D).length = D := by
  simp [zeroVec]

theorem scaleVec_zero (v : Vec) : scaleVec 0 v = zeroVec v.length := by
  simp [scaleVec, zeroVec]

theorem scaleVec_one (v : Vec) : scaleVec 1 v = v := by
  simp [scaleVec]

theorem addVec_zero_left : ∀ (v : Vec) (D : ℕ), v.length = D → addVec (zeroVec D) v = v
  | [], _, h => by simp [addVec, zeroVec]
  | a :: t, D, h => by
    subst h
    simpa [addVec, zeroVec, List.replicate_succ] using addVec_zero_left t t.length rfl

theorem addVec_zero_right : ∀ (v : Vec) (D : ℕ), v.length = D → addVec v (zeroVec D) = v
  | [], _, h => by simp [addVec, zeroVec]
  | a :: t, D, h => by
    subst h
    simpa [addVec, zeroVec, List.replicate_succ] using addVec_zero_right t t.length rfl

theorem weightedSum_length : ∀ (D : ℕ) (ws : List ℚ) (rows : List Vec),
    (∀ r ∈ rows, r.length = D) → (weightedSum D ws rows).length = D
  | D, [], _, _ => by simp [weightedSum, zeroVec]
  | D, _ :: _, [], _ => by simp [weightedSum, zeroVec]
  | D, w :: ws, r :: rs, h => by
    have ih := weightedSum_length D ws rs (fun r hr => h r (by simp [hr]))
    have hr : r.length = D := h r (by simp)
    simp [weightedSum, addVec, scaleVec, ih, hr]

theorem weightedSum_zeroWeights : ∀ (D : ℕ) (ws : List ℚ) (rows : List Vec),
    (∀ w ∈ ws, w = 0) → (∀ r ∈ rows, r.length = D) →
    weightedSum D ws rows = zeroVec D
  | D, [], _, _, _ => by simp [weightedSum]
  | D, _ :: _, [], _, _ => by simp [weightedSum]
  | D, w :: ws, r :: rs, hw, h => by
    have ih := weightedSum_zeroWeights D ws rs (fun w hmem => hw w (by simp [hmem]))
      (fun r hr => h r (by simp [hr]))
    have hw0 : w = 0 := hw w (by simp)
    have hr : r.length = D := h r (by simp)
    rw [weightedSum, ih, hw0, scaleVec_zero, hr]
    exact addVec_zero_left (zeroVec D) D (zeroVec_length D)

theorem weightedSum_oneHot : ∀ (D K i : ℕ) (rows : List Vec),
    rows.length = K → (∀ r ∈ rows, r.length = D) → i < K →
    weightedSum D (oneHot K i) rows = rows.getD i []
  | D, 0, i, _, _, _, hi => by simp at hi
  | D, K + 1, i, [], hlen, _, _ => by simp at hlen
  | D, K + 1, 0, r :: rs, hlen, h, _ => by
    have hr : r.length = D := h r (by simp)
    have hz : weightedSum D (List.replicate K (0 : ℚ)) rs = zeroVec D :=
      weightedSum_zeroWeights D _ rs (fun w hw => List.eq_of_mem_replicate hw)
        (fun r hmem => h r (by simp [hmem]))
    simp only [oneHot, weightedSum, hz, scaleVec_one]
    rw [addVec_zero_right r D hr]
    simp
  | D, K + 1, i + 1, r :: rs, hlen, h, hi => by
    have ih := weightedSum_oneHot D K i rs (by simpa using hlen)
      (fun r hmem => h r (by simp [hmem])) (by omega)
    have hr : r.length = D := h r (by simp)
    have hmemlen : (rs.getD i []).length = D := by
      have hilt : i < rs.length := by
        have : rs.length = K := by simpa using hlen
        omega
      rw [List.getD_eq_getElem rs [] hilt]
      exact h _ (by exact List.mem_cons_of_mem r (List.getElem_mem hilt))
    simp only [oneHot, weightedSum, ih, scaleVec_zero, hr]
    rw [addVec_zero_left _ D hmemlen]
    simp

/-! ### Batch statistics and the fields written by `trainStep` -/

theorem batchCounts_length (K : ℕ) (oneHots : List Vec) :
    (batchCounts K oneHots).length = K := by
  simp [batchCounts]

theorem getD_range (K k : ℕ) (hk : k < K) : (List.range K).getD k 0 = k := by
  rw [List.getD_eq_getElem _ 0 (by simpa using hk)]
  exact List.getElem_range k _

theorem batchCounts_getD (K : ℕ) (oneHots : List Vec) (k : ℕ) (hk : k < K) :
    (batchCounts K oneHots).getD k 0 = (oneHots.map (fun r => r.getD k 0)).sum := by
  unfold batchCounts
  rw [getD_map _ (List.range K) k (by simpa using hk) 0, getD_range K k hk]

theorem batchMeans_length (K D : ℕ) (codes oneHots : List Vec) :
    (batchMeans K D codes oneHots).length = K := by
  simp [batchMeans]

theorem batchMeans_getD (K D : ℕ) (codes oneHots : List Vec) (k : ℕ) (hk : k < K) :
    (batchMeans K D codes oneHots).getD k [] =
      weightedSum D (oneHots.map (fun r => r.getD k 0)) codes := by
  unfold batchMeans
  rw [getD_map _ (List.range K) k (by simpa using hk) 0, getD_range K k hk]

theorem trainStep_emaCount (decay : ℚ) (K D : ℕ) (st : VQState)
    (codes oneHots : List Vec) :
    (trainStep decay K D st codes oneHots).emaCount =
      assignMovingAverage decay st.emaCount (batchCounts K oneHots) := rfl

theorem trainStep_emaMeans (decay : ℚ) (K D : ℕ) (st : VQState)
    (codes oneHots : List Vec) :
    (trainStep decay K D st codes oneHots).emaMeans =
      emaMeansUpdate decay st.emaMeans (batchMeans K D codes oneHots) := rfl

theorem trainStep_codebook (decay : ℚ) (K D : ℕ) (st : VQState)
    (codes oneHots : List Vec) :
    (trainStep decay K D st codes oneHots).codebook =
      List.zipWith (fun m c => m.map (fun a => a / c))
        (emaMeansUpdate decay st.emaMeans (batchMeans K D codes oneHots))
        ((assignMovingAverage decay st.emaCount (batchCounts K oneHots)).map
          (fun c => c + eps)) := rfl

theorem trainStep_emaCount_getD (decay : ℚ) (K D : ℕ) (st : VQState)
    (codes oneHots : List Vec) (k : ℕ) (hc : st.emaCount.length = K) (hk : k < K) :
    (trainStep decay K D st codes oneHots).emaCount.getD k 0 =
      decay * st.emaCount.getD k 0 +
        (1 - decay) * (oneHots.map (fun r => r.getD k 0)).sum := by
  rw [trainStep_emaCount, assignMovingAverage,
    getD_zipWith _ st.emaCount (batchCounts K oneHots) k (by omega)
      (by rw [batchCounts_length]; omega) 0 0 0,
    batchCounts_getD K oneHots k hk]

theorem trainStep_emaCount_length (decay : ℚ) (K D : ℕ) (st : VQState)
    (codes oneHots : List Vec) (hc : st.emaCount.length = K) :
    (trainStep decay K D st codes oneHots).emaCount.length = K := by
  rw [trainStep_emaCount, assignMovingAverage, List.length_zipWith, hc,
    batchCounts_length]
  omega

theorem trainStep_emaMeans_entry (decay : ℚ) (K D : ℕ) (st : VQState)
    (codes oneHots : List Vec) (k : ℕ) (hm : st.emaMeans.length = K) (hk : k < K) :
    (trainStep decay K D st codes oneHots).emaMeans.getD k [] =
      List.zipWith (fun a b => decay * a + (1 - decay) * b)
        (st.emaMeans.getD k []) (batchMeans K D codes oneHots |>.getD k []) := by
  rw [trainStep_emaMeans, emaMeansUpdate,
    getD_zipWith _ st.emaMeans (batchMeans K D codes oneHots) k (by omega)
      (by rw [batchMeans_length]; omega) [] [] []]

theorem trainStep_emaMeans_getD (decay : ℚ) (K D : ℕ) (st : VQState)
    (codes oneHots : List Vec) (k d : ℕ) (hm : st.emaMeans.length = K) (hk : k < K)
    (hmd : (st.emaMeans.getD k []).length = D) (hcd : ∀ c ∈ codes, c.length = D)
    (hd : d < D) :
    ((trainStep decay K D st codes oneHots).emaMeans.getD k []).getD d 0 =
      decay * (st.emaMeans.getD k []).getD d 0 +
        (1 - decay) * ((batchMeans K D codes oneHots).getD k []).getD d 0 := by
  have hbm : ((batchMeans K D codes oneHots).getD k []).length = D := by
    rw [batchMeans_getD K D codes oneHots k hk]
    exact weightedSum_length D _ codes hcd
  rw [trainStep_emaMeans_entry decay K D st codes oneHots k hm hk,
    getD_zipWith _ _ _ d (by omega) (by omega) 0 0 0]

theorem trainStep_emaMeans_entry_length (decay : ℚ) (K D : ℕ) (st : VQState)
    (codes oneHots : List Vec) (k : ℕ) (hm : st.emaMeans.length = K) (hk : k < K)
    (hmd : (st.emaMeans.getD k []).length = D) (hcd : ∀ c ∈ codes, c.length = D) :
    ((trainStep decay K D st codes oneHots).emaMeans.getD k []).length = D := by
  have hbm : ((batchMeans K D codes oneHots).getD k []).length = D := by
    rw [batchMeans_getD K D codes oneHots k hk]
    exact weightedSum_length D _ codes hcd
  rw [trainStep_emaMeans_entry decay K D st codes oneHots k hm hk,
    List.length_zipWith, hmd, hbm]
  omega

theorem trainStep_codebook_getD (decay : ℚ) (K D : ℕ) (st : VQState)
    (codes oneHots : List Vec) (k d : ℕ)
    (hc : st.emaCount.length = K) (hm : st.emaMeans.length = K) (hk : k < K)
    (hmd : (st.emaMeans.getD k []).length = D) (hcd : ∀ c ∈ codes, c.length = D)
    (hd : d < D) :
    ((trainStep decay K D st codes oneHots).codebook.getD k []).getD d 0 =
      ((trainStep decay K D st codes oneHots).emaMeans.getD k []).getD d 0 /
        ((trainStep decay K D st codes oneHots).emaCount.getD k 0 + eps) := by
  have hclen : (trainStep decay K D st codes oneHots).emaCount.length = K :=
    trainStep_emaCount_length decay K D st codes oneHots hc
  have hmlen : (trainStep decay K D st codes oneHots).emaMeans.length = K := by
    rw [trainStep_emaMeans, emaMeansUpdate, List.length_zipWith, hm,
      batchMeans_length]
    omega
  have hentry : ((trainStep decay K D st codes oneHots).emaMeans.getD k []).length = D :=
    trainStep_emaMeans_entry_length decay K D st codes oneHots k hm hk hmd hcd
  have hstep : (trainStep decay K D st codes oneHots).codebook =
      List.zipWith (fun m c => m.map (fun a => a / c))
        (trainStep decay K D st codes oneHots).emaMeans
        ((trainStep decay K D st codes oneHots).emaCount.map (fun c => c + eps)) := rfl
  rw [hstep,
    getD_zipWith _ _ _ k (by omega) (by rw [List.length_map]; omega) [] 0 [],
    getD_map _ _ d (by rw [hentry]; omega) 0,
    getD_map _ _ k (by omega) 0]

/-! ### Distances and dual-number lemmas -/

theorem sqDist_nonneg (x y : Vec) : 0 ≤ sqDist x y := by
  unfold sqDist
  apply List.sum_nonneg
  intro q hq
  obtain ⟨a, _, b, _, rfl⟩ := mem_of_zipWith _ x y q hq
  positivity

theorem dSum_deriv : ∀ (l : List Dual), (dSum l).deriv = (l.map Dual.deriv).sum
  | [] => rfl
  | a :: t => by
    have ih := dSum_deriv t
    simp only [dSum, List.foldr_cons, dAdd, List.map_cons, List.sum_cons] at ih ⊢
    rw [ih]

theorem codesStraightThrough_deriv_zero (codes nearest : List Dual)
    (h : ∀ c ∈ codes, c.deriv = 0) :
    ∀ x ∈ codesStraightThrough codes nearest, x.deriv = 0 := by
  intro x hx
  obtain ⟨c, hc, n, hn, rfl⟩ := mem_of_zipWith _ codes nearest x hx
  simp [dAdd, dStopGradient, dSub, h c hc]

theorem codesStraightThrough_val : ∀ (codes nearest : List Dual),
    codes.length = nearest.length →
    (codesStraightThrough codes nearest).map Dual.val = nearest.map Dual.val
  | [], [], _ => rfl
  | [], _ :: _, h => by simp at h
  | _ :: _, [], h => by simp at h
  | c :: cs, n :: ns, h => by
    have ih := codesStraightThrough_val cs ns (by simpa using h)
    simp only [codesStraightThrough, List.zipWith_cons_cons, List.map_cons, dAdd,
      dStopGradient, dSub] at ih ⊢
    rw [show c.val + (n.val - c.val) = n.val from by ring, ih]

theorem runEmaCount_entries_nonneg (decay : ℚ) (K : ℕ)
    (hd0 : 0 ≤ decay) (hd1 : decay ≤ 1) :
    ∀ (steps : List (List Vec)) (init : List ℚ), (∀ x ∈ init, 0 ≤ x) →
      (∀ s ∈ steps, ∀ r ∈ s, ∀ x ∈ r, 0 ≤ x) →
      ∀ x ∈ runEmaCount decay K init steps, 0 ≤ x
  | [], init, hinit, _ => by simpa [runEmaCount] using hinit
  | s :: steps, init, hinit, hsteps => by
    have hstep : ∀ x ∈ assignMovingAverage decay init (batchCounts K s), 0 ≤ x := by
      intro x hx
      obtain ⟨v, hv, c, hc, rfl⟩ := mem_of_zipWith _ _ _ x hx
      have hv0 : 0 ≤ v := hinit v hv
      have hc0 : 0 ≤ c := by
        unfold batchCounts at hc
        obtain ⟨k, _, rfl⟩ := List.mem_map.mp hc
        apply List.sum_nonneg
        intro q hq
        obtain ⟨r, hr, rfl⟩ := List.mem_map.mp hq
        exact getD_nonneg r (hsteps s (by simp) r hr) _
      have h1 : 0 ≤ 1 - decay := by linarith
      have := add_nonneg (mul_nonneg hd0 hv0) (mul_nonneg h1 hc0)
      simpa using this
    have htail := runEmaCount_entries_nonneg decay K hd0 hd1 steps
      (assignMovingAverage decay init (batchCounts K s)) hstep
      (fun s' hs' => hsteps s' (by simp [hs']))
    simpa [runEmaCount] using htail

/-! ### Claims -/

/-- Claim C3: for every latent-position input vector and every codebook, the
quantizer selects an index minimizing the Euclidean distance
(`tf.norm`, i.e. the square root of the squared distance) to the codebook
entries, and when two or more entries are equidistant from the input the
smallest such index is selected.  Determinism on repeated runs is inherent:
`quantizeIdx` is a pure function of its inputs. -/
theorem vq_c3 (code : Vec) (codebook : List Vec) (hne : codebook ≠ []) :
    quantizeIdx code codebook < codebook.length ∧
    (∀ k, k < codebook.length →
      Real.sqrt ((sqDist code (codebook.getD (quantizeIdx code codebook) []) : ℚ) : ℝ) ≤
        Real.sqrt ((sqDist code (codebook.getD k []) : ℚ) : ℝ)) ∧
    (∀ k, k < codebook.length →
      Real.sqrt ((sqDist code (codebook.getD k []) : ℚ) : ℝ) =
        Real.sqrt ((sqDist code (codebook.getD (quantizeIdx code codebook) []) : ℚ) : ℝ) →
      quantizeIdx code codebook ≤ k) := by
  have hlen : (codebook.map (fun e => sqDist code e)).length = codebook.length := by
    simp
  have hne' : codebook.map (fun e => sqDist code e) ≠ [] := by simpa using hne
  have hidx : quantizeIdx code codebook < codebook.length := by
    have h := argminIdx_lt_length _ hne'
    rw [hlen] at h
    exact h
  have hbridge : ∀ k, k < codebook.length →
      (codebook.map (fun e => sqDist code e)).getD k 0 =
        sqDist code (codebook.getD k []) := by
    intro k hk
    exact getD_map _ codebook k hk [] 0
  refine ⟨hidx, ?_, ?_⟩
  · intro k hk
    have h1 := argminIdx_le (codebook.map (fun e => sqDist code e)) k (by omega)
    rw [hbridge k hk] at h1
    rw [show argminIdx (codebook.map (fun e => sqDist code e)) =
        quantizeIdx code codebook from rfl, hbridge _ hidx] at h1
    exact Real.sqrt_le_sqrt (by exact_mod_cast h1)
  · intro k hk heq
    have h0 : (0 : ℝ) ≤ ((sqDist code (codebook.getD k []) : ℚ) : ℝ) := by
      exact_mod_cast sqDist_nonneg _ _
    have h1 : (0 : ℝ) ≤
        ((sqDist code (codebook.getD (quantizeIdx code codebook) []) : ℚ) : ℝ) := by
      exact_mod_cast sqDist_nonneg _ _
    have heq' : sqDist code (codebook.getD k []) =
        sqDist code (codebook.getD (quantizeIdx code codebook) []) := by
      exact_mod_cast (Real.sqrt_inj h0 h1).mp heq
    apply argminIdx_first (codebook.map (fun e => sqDist code e)) k (by omega)
    rw [hbridge k hk]
    rw [show argminIdx (codebook.map (fun e => sqDist code e)) =
      quantizeIdx code codebook from rfl, hbridge _ hidx]
    exact le_of_eq heq'

/-- Witness for C3, at codebook `[[0],[1]]` and input `[0]`, comparing the
selected entry against entry 1. -/
theorem vq_c3_witness :
    Real.sqrt ((sqDist [0] (([[0], [1]] : List Vec).getD
        (quantizeIdx [0] [[0], [1]]) []) : ℚ) : ℝ) ≤
      Real.sqrt ((sqDist [0] (([[0], [1]] : List Vec).getD 1 []) : ℚ) : ℝ) :=
  (vq_c3 [0] [[0], [1]] (by decide)).2.1 1 (by decide)

/-- Claim C4: every one-hot assignment row returned by the quantizer is
exactly one-hot: it has length `num_codes`, the entry at the selected index
is `1`, every other entry is `0`, and the row sums to `1`. -/
theorem vq_c4 (code : Vec) (codebook : List Vec) (hne : codebook ≠ []) :
    (oneHotAssign code codebook).length = codebook.length ∧
    (oneHotAssign code codebook).getD (quantizeIdx code codebook) 0 = 1 ∧
    (∀ j, j ≠ quantizeIdx code codebook → (oneHotAssign code codebook).getD j 0 = 0) ∧
    (oneHotAssign code codebook).sum = 1 := by
  have hidx : quantizeIdx code codebook < codebook.length := by
    have h := argminIdx_lt_length (codebook.map (fun e => sqDist code e))
      (by simpa using hne)
    simpa using h
  exact ⟨oneHot_length _ _, oneHot_getD_self _ _ hidx,
    fun j hj => oneHot_getD_ne _ _ j hj, oneHot_sum _ _ hidx⟩

/-- Witness for C4, at codebook `[[0],[1]]` and input `[0]`. -/
theorem vq_c4_witness :
    (oneHotAssign [0] [[0], [1]]).sum = 1 :=
  (vq_c4 [0] [[0], [1]] (by decide)).2.2.2

/-- Claim C5: the quantizer's two outputs are consistent — the nearest entry
equals the codebook row selected by the one-hot assignment — and on the
spec's end-to-end scenario (`num_codes=4`, `code_size=2`, codebook
`[[0,0],[10,10],[-10,10],[10,-10]]`, input `[0.1,0.1]`) the quantizer
returns `nearest = [0,0]` and `one_hot = [1,0,0,0]`. -/
theorem vq_c5 :
    (∀ (D : ℕ) (code : Vec) (codebook : List Vec), codebook ≠ [] →
      (∀ r ∈ codebook, r.length = D) →
      nearestEntry D code codebook = codebook.getD (quantizeIdx code codebook) []) ∧
    nearestEntry 2 [1/10, 1/10] [[0, 0], [10, 10], [-10, 10], [10, -10]] = [0, 0] ∧
    oneHotAssign [1/10, 1/10] [[0, 0], [10, 10], [-10, 10], [10, -10]] =
      [1, 0, 0, 0] := by
  refine ⟨?_,
    by norm_num [nearestEntry, oneHotAssign, quantizeIdx, sqDist, argminIdx,
      oneHot, weightedSum, scaleVec, addVec, zeroVec, List.replicate_succ],
    by norm_num [oneHotAssign, quantizeIdx, sqDist, argminIdx, oneHot,
      List.replicate_succ]⟩
  intro D code codebook hne hrect
  have hidx : quantizeIdx code codebook < codebook.length := by
    have h := argminIdx_lt_length (codebook.map (fun e => sqDist code e))
      (by simpa using hne)
    simpa using h
  unfold nearestEntry oneHotAssign
  exact weightedSum_oneHot D codebook.length (quantizeIdx code codebook) codebook
    rfl hrect hidx

/-- Witness for C5's universal part, at the scenario codebook and input. -/
theorem vq_c5_witness :
    nearestEntry 2 [1/10, 1/10] [[0, 0], [10, 10], [-10, 10], [10, -10]] =
      ([[0, 0], [10, 10], [-10, 10], [10, -10]] : List Vec).getD
        (quantizeIdx [1/10, 1/10] [[0, 0], [10, 10], [-10, 10], [10, -10]]) [] :=
  vq_c5.1 2 [1/10, 1/10] [[0, 0], [10, 10], [-10, 10], [10, -10]]
    (by decide) (by decide)

/-- Claim C1: one EMA codebook update computes exactly
`ema_count' = decay * ema_count + (1-decay) * batch_counts` where
`batch_counts[k]` sums `one_hot[..., k]` over all positions,
`ema_means' = decay * ema_means + (1-decay) * batch_means`, and
`new_codebook[k] = ema_means'[k] / (ema_count'[k] + 1e-5)`; and the spec's
end-to-end scenario (`decay = 0.5`, batch count 2 and vector sum `[1,1]` for
code 0 from `ema_count[0] = 0`, `ema_means[0] = [0,0]`) yields
`ema_count[0] = 1`, `ema_means[0] = [0.5, 0.5]` and
`new_codebook[0] = [0.5,0.5]/(1 + 1e-5)`. -/
theorem vq_c1 (decay : ℚ) (K D : ℕ) (st : VQState) (codes oneHots : List Vec)
    (hc : st.emaCount.length = K) (hm : st.emaMeans.length = K)
    (hcd : ∀ c ∈ codes, c.length = D) :
    (∀ k, k < K →
      (trainStep decay K D st codes oneHots).emaCount.getD k 0 =
        decay * st.emaCount.getD k 0 +
          (1 - decay) * (oneHots.map (fun r => r.getD k 0)).sum) ∧
    (∀ k d, k < K → d < D → (st.emaMeans.getD k []).length = D →
      ((trainStep decay K D st codes oneHots).emaMeans.getD k []).getD d 0 =
        decay * (st.emaMeans.getD k []).getD d 0 +
          (1 - decay) * ((batchMeans K D codes oneHots).getD k []).getD d 0) ∧
    (∀ k d, k < K → d < D → (st.emaMeans.getD k []).length = D →
      ((trainStep decay K D st codes oneHots).codebook.getD k []).getD d 0 =
        ((trainStep decay K D st codes oneHots).emaMeans.getD k []).getD d 0 /
          ((trainStep decay K D st codes oneHots).emaCount.getD k 0 + eps)) ∧
    trainStep (1/2) 1 2 ⟨[[0, 0]], [0], [[0, 0]]⟩
        [[1/2, 1/2], [1/2, 1/2]] [[1], [1]] =
      ⟨[[50000/100001, 50000/100001]], [1], [[1/2, 1/2]]⟩ := by
  refine ⟨fun k hk => trainStep_emaCount_getD decay K D st codes oneHots k hc hk,
    fun k d hk hd hmd =>
      trainStep_emaMeans_getD decay K D st codes oneHots k d hm hk hmd hcd hd,
    fun k d hk hd hmd =>
      trainStep_codebook_getD decay K D st codes oneHots k d hc hm hk hmd hcd hd,
    ?_⟩
  norm_num [trainStep, assignMovingAverage, emaMeansUpdate, batchCounts,
    batchMeans, weightedSum, scaleVec, addVec, zeroVec, eps,
    List.replicate_succ, List.range_succ, VQState.mk.injEq]

/-- Witness for C1, extracting the updated `ema_count[0]` on the scenario
inputs. -/
theorem vq_c1_witness :
    (trainStep (1/2) 1 2 ⟨[[0, 0]], [0], [[0, 0]]⟩
        [[1/2, 1/2], [1/2, 1/2]] [[1], [1]]).emaCount.getD 0 0 =
      (1/2) * (VQState.mk [[0, 0]] [0] [[0, 0]]).emaCount.getD 0 0 +
        (1 - 1/2) * (([[1], [1]] : List Vec).map (fun r => r.getD 0 0)).sum :=
  (vq_c1 (1/2) 1 2 ⟨[[0, 0]], [0], [[0, 0]]⟩ [[1/2, 1/2], [1/2, 1/2]] [[1], [1]]
    (by decide) (by decide) (by decide)).1 0 (by decide)

/-- Claim C6: when the one-hot assignments assign zero vectors to code `k`
(every row's entry `k` is zero, so its batch count and batch vector sum both
vanish), the EMA update multiplies `ema_count[k]` and every component of
`ema_means[k]` by exactly `decay`, with no additive increment. -/
theorem vq_c6 (decay : ℚ) (K D k : ℕ) (st : VQState) (codes oneHots : List Vec)
    (hk : k < K) (hc : st.emaCount.length = K) (hm : st.emaMeans.length = K)
    (hmd : (st.emaMeans.getD k []).length = D) (hcd : ∀ c ∈ codes, c.length = D)
    (hzero : ∀ r ∈ oneHots, r.getD k 0 = 0) :
    (trainStep decay K D st codes oneHots).emaCount.getD k 0 =
      decay * st.emaCount.getD k 0 ∧
    ∀ d, d < D →
      ((trainStep decay K D st codes oneHots).emaMeans.getD k []).getD d 0 =
        decay * (st.emaMeans.getD k []).getD d 0 := by
  have hsum : (oneHots.map (fun r => r.getD k 0)).sum = 0 := by
    apply List.sum_eq_zero
    intro x hx
    obtain ⟨r, hr, rfl⟩ := List.mem_map.mp hx
    exact hzero r hr
  constructor
  · rw [trainStep_emaCount_getD decay K D st codes oneHots k hc hk, hsum]
    ring
  · intro d hd
    rw [trainStep_emaMeans_getD decay K D st codes oneHots k d hm hk hmd hcd hd]
    have hbm : (batchMeans K D codes oneHots).getD k [] = zeroVec D := by
      rw [batchMeans_getD K D codes oneHots k hk]
      apply weightedSum_zeroWeights D _ codes ?_ hcd
      intro w hw
      obtain ⟨r, hr, rfl⟩ := List.mem_map.mp hw
      exact hzero r hr
    rw [hbm, show (zeroVec D).getD d 0 = 0 from getD_replicate_zero D d]
    ring

/-- Witness for C6, one code (`K = 1`) receiving no assignments. -/
theorem vq_c6_witness :
    (trainStep (1/2) 1 1 ⟨[[2]], [5], [[7]]⟩ [[3]] [[0]]).emaCount.getD 0 0 =
      (1/2) * (VQState.mk [[2]] [5] [[7]]).emaCount.getD 0 0 :=
  (vq_c6 (1/2) 1 1 0 ⟨[[2]], [5], [[7]]⟩ [[3]] [[0]] (by decide) (by decide)
    (by decide) (by decide) (by decide) (by norm_num)).1

/-- Claim C9: starting from `ema_count = 0`, after any sequence of EMA update
steps with `decay ∈ (0,1)` and nonnegative one-hot entries, every
`ema_count[k]` stays nonnegative, so the divisor `ema_count[k] + 1e-5` used to
derive the new codebook is at least `1e-5 > 0` and the division never divides
by zero. -/
theorem vq_c9 (decay : ℚ) (K : ℕ) (steps : List (List Vec)) (k : ℕ)
    (hd0 : 0 < decay) (hd1 : decay < 1)
    (hsteps : ∀ s ∈ steps, ∀ r ∈ s, ∀ x ∈ r, 0 ≤ x) :
    0 ≤ (runEmaCount decay K (List.replicate K 0) steps).getD k 0 ∧
    eps ≤ (runEmaCount decay K (List.replicate K 0) steps).getD k 0 + eps ∧
    (0 : ℚ) < (runEmaCount decay K (List.replicate K 0) steps).getD k 0 + eps := by
  have h := runEmaCount_entries_nonneg decay K (le_of_lt hd0) (le_of_lt hd1)
    steps (List.replicate K 0)
    (fun x hx => le_of_eq (List.eq_of_mem_replicate hx).symm) hsteps
  have h0 := getD_nonneg _ h k
  have heps : (0 : ℚ) < eps := by norm_num [eps]
  exact ⟨h0, by linarith, by linarith⟩

/-- Witness for C9, one step assigning both positions to the single code. -/
theorem vq_c9_witness :
    0 ≤ (runEmaCount (1/2) 1 (List.replicate 1 0) [[[1], [1]]]).getD 0 0 :=
  (vq_c9 (1/2) 1 [[[1], [1]]] 0 (by norm_num) (by norm_num) (by norm_num)).1

/-- Claim C10: a training step writes the normalized value
`ema_means' / (ema_count' + 1e-5)` only into the codebook; the stored
`ema_means` keeps the un-normalized moving-average sum, the stored
`ema_count` keeps `decay * ema_count + (1-decay) * batch_counts` without the
`1e-5`, and composing two steps shows the epsilon never accumulates into the
persistent state. -/
theorem vq_c10 (decay : ℚ) (K D : ℕ) (st : VQState)
    (codes oneHots codes2 oneHots2 : List Vec)
    (hc : st.emaCount.length = K) (hm : st.emaMeans.length = K)
    (hcd : ∀ c ∈ codes, c.length = D) :
    (∀ k, k < K →
      (trainStep decay K D st codes oneHots).emaCount.getD k 0 =
        decay * st.emaCount.getD k 0 + (1 - decay) * (batchCounts K oneHots).getD k 0) ∧
    (∀ k d, k < K → d < D → (st.emaMeans.getD k []).length = D →
      ((trainStep decay K D st codes oneHots).emaMeans.getD k []).getD d 0 =
        decay * (st.emaMeans.getD k []).getD d 0 +
          (1 - decay) * ((batchMeans K D codes oneHots).getD k []).getD d 0) ∧
    (∀ k d, k < K → d < D → (st.emaMeans.getD k []).length = D →
      ((trainStep decay K D st codes oneHots).codebook.getD k []).getD d 0 =
        ((trainStep decay K D st codes oneHots).emaMeans.getD k []).getD d 0 /
          ((trainStep decay K D st codes oneHots).emaCount.getD k 0 + eps)) ∧
    (∀ k, k < K →
      (trainStep decay K D (trainStep decay K D st codes oneHots)
          codes2 oneHots2).emaCount.getD k 0 =
        decay * (decay * st.emaCount.getD k 0 +
            (1 - decay) * (oneHots.map (fun r => r.getD k 0)).sum) +
          (1 - decay) * (oneHots2.map (fun r => r.getD k 0)).sum) := by
  refine ⟨?_, fun k d hk hd hmd =>
      trainStep_emaMeans_getD decay K D st codes oneHots k d hm hk hmd hcd hd,
    fun k d hk hd hmd =>
      trainStep_codebook_getD decay K D st codes oneHots k d hc hm hk hmd hcd hd,
    ?_⟩
  · intro k hk
    rw [trainStep_emaCount_getD decay K D st codes oneHots k hc hk,
      batchCounts_getD K oneHots k hk]
  · intro k hk
    rw [trainStep_emaCount_getD decay K D (trainStep decay K D st codes oneHots)
        codes2 oneHots2 k (trainStep_emaCount_length decay K D st codes oneHots hc) hk,
      trainStep_emaCount_getD decay K D st codes oneHots k hc hk]

/-- Witness for C10, on the C1 scenario inputs followed by an empty batch. -/
theorem vq_c10_witness :
    (trainStep (1/2) 1 2 (trainStep (1/2) 1 2 ⟨[[0, 0]], [0], [[0, 0]]⟩
        [[1/2, 1/2], [1/2, 1/2]] [[1], [1]]) [] []).emaCount.getD 0 0 =
      (1/2) * ((1/2) * (VQState.mk [[0, 0]] [0] [[0, 0]]).emaCount.getD 0 0 +
          (1 - 1/2) * (([[1], [1]] : List Vec).map (fun r => r.getD 0 0)).sum) +
        (1 - 1/2) * (([] : List Vec).map (fun r => r.getD 0 0)).sum :=
  (vq_c10 (1/2) 1 2 ⟨[[0, 0]], [0], [[0, 0]]⟩ [[1/2, 1/2], [1/2, 1/2]] [[1], [1]]
    [] [] (by decide) (by decide) (by decide)).2.2.2 0 (by decide)

/-- Claim C2: the derivative of the composed loss
(`reconstruction_loss + beta * commitment_loss`) along any perturbation of
the codebook is exactly zero whenever the encoder output `codes` does not
depend on the codebook: both uses of `nearest_codebook_entries` sit behind
`tf.stop_gradient`, so no gradient reaches the codebook through the
straight-through path or the commitment-loss path. -/
theorem vq_c2 (beta : ℚ) (f : List ℚ → ℚ) (sens : List ℚ)
    (codes nearest : List Dual) (h : ∀ c ∈ codes, c.deriv = 0) :
    (vqLoss beta f sens codes nearest).deriv = 0 := by
  have hst := codesStraightThrough_deriv_zero codes nearest h
  have hrecon : (List.zipWith (fun s xi => s * xi.deriv) sens
      (codesStraightThrough codes nearest)).sum = 0 := by
    apply List.sum_eq_zero
    intro x hx
    obtain ⟨s, hs, xi, hxi, rfl⟩ := mem_of_zipWith _ _ _ x hx
    rw [hst xi hxi, mul_zero]
  have hcommit : (dSum (List.zipWith
      (fun c n => dMul (dSub c (dStopGradient n)) (dSub c (dStopGradient n)))
      codes nearest)).deriv = 0 := by
    rw [dSum_deriv]
    apply List.sum_eq_zero
    intro x hx
    obtain ⟨y, hy, rfl⟩ := List.mem_map.mp hx
    obtain ⟨c, hc, n, hn, rfl⟩ := mem_of_zipWith _ _ _ y hy
    simp [dMul, dSub, dStopGradient, h c hc]
  simp only [vqLoss, dAdd, dScale, reconstructionLoss, commitmentLoss]
  rw [hrecon, hcommit]
  ring

/-- Witness for C2, at concrete inputs with a codebook-dependent `nearest`. -/
theorem vq_c2_witness :
    (vqLoss (1/4) (fun l => -l.sum) [2] [⟨3, 0⟩] [⟨5, 7⟩]).deriv = 0 :=
  vq_c2 (1/4) (fun l => -l.sum) [2] [⟨3, 0⟩] [⟨5, 7⟩] (by norm_num)

/-- Claim C8: the straight-through value
`codes + tf.stop_gradient(nearest - codes)` evaluates, in forward-value
semantics, exactly to `nearest`: `codes + (nearest - codes) = nearest`
elementwise for every pair of equally shaped inputs. -/
theorem vq_c8 (codes nearest : List Dual) (h : codes.length = nearest.length) :
    (codesStraightThrough codes nearest).map Dual.val = nearest.map Dual.val :=
  codesStraightThrough_val codes nearest h

/-- Witness for C8 at concrete dual inputs. -/
theorem vq_c8_witness :
    (codesStraightThrough [⟨1, 2⟩] [⟨3, 4⟩]).map Dual.val =
      ([⟨3, 4⟩] : List Dual).map Dual.val :=
  vq_c8 [⟨1, 2⟩] [⟨3, 4⟩] (by decide)

/-- Counterexample to claim C7: nothing in the flag declaration or in
`make_vq_vae` validates `decay`; with the out-of-range `decay = 2` the step
proceeds straight into the moving-average update and stores the degenerate
count `2 * 0 + (1 - 2) * 1 = -1` instead of rejecting with an error. -/
theorem vq_c7_counterexample :
    (trainStep 2 1 1 ⟨[[0]], [0], [[0]]⟩ [[3]] [[1]]).emaCount = [-1] := by
  norm_num [trainStep, assignMovingAverage, batchCounts, List.range_succ]

/-- Claim C7 as amended: the core performs no validation of `decay`; every
rational `decay`, in or out of `(0,1)`, is accepted and used directly, the
stored count becoming `decay * ema_count + (1 - decay) * batch_counts`. -/
theorem vq_c7_amended (decay : ℚ) (K D : ℕ) (st : VQState)
    (codes oneHots : List Vec) (k : ℕ) (hc : st.emaCount.length = K) (hk : k < K) :
    (trainStep decay K D st codes oneHots).emaCount.getD k 0 =
      decay * st.emaCount.getD k 0 +
        (1 - decay) * (oneHots.map (fun r => r.getD k 0)).sum :=
  trainStep_emaCount_getD decay K D st codes oneHots k hc hk

/-- Witness for the amended C7, at the degenerate `decay = 2`. -/
theorem vq_c7_witness :
    (trainStep 2 1 1 ⟨[[0]], [0], [[0]]⟩ [[3]] [[1]]).emaCount.getD 0 0 =
      2 * (VQState.mk [[0]] [0] [[0]]).emaCount.getD 0 0 +
        (1 - 2) * (([[1]] : List Vec).map (fun r => r.getD 0 0)).sum :=
  vq_c7_amended 2 1 1 ⟨[[0]], [0], [[0]]⟩ [[3]] [[1]] 0 (by decide) (by decide)

end VqVae
